import Mathlib

set_option maxHeartbeats 1000000

/-! Shallow embedding of the incremental optimizer-log parser of
`parse_logs.py` (class `LogParser`, lines 29-143, and the file selection in
`main`, lines 567-580).  Log lines are modelled as `List Char`; Python
floats are modelled as exact rationals (the decimal literals the parser
consumes denote rationals exactly); a raised exception is modelled by an
`Option` result being `none`. -/

/-- ASCII fragment of Python's regex `\s` / `str.strip` whitespace. -/
def isPySpace (c : Char) : Bool :=
  c = ' ' || c = '\t' || c = '\n' || c = '\r' || c = '\x0b' || c = '\x0c'

/-- Python regex `\d` (ASCII fragment). -/
def isDigitCh (c : Char) : Bool :=
  '0' ≤ c && c ≤ '9'

/-- Python regex `\w` (ASCII fragment). -/
def isWordCh (c : Char) : Bool :=
  isDigitCh c || ('a' ≤ c && c ≤ 'z') || ('A' ≤ c && c ≤ 'Z') || c = '_'

/-- Character class `[-\d,\.]` of `param_pattern` (parse_logs.py line 55). -/
def isValCh (c : Char) : Bool :=
  isDigitCh c || c = '-' || c = ',' || c = '.'

/-- Numeric value of a digit character. -/
def digitVal (c : Char) : ℕ := c.toNat - '0'.toNat

/-- Value of a digit string, as `int()` reads it (leading zeros allowed). -/
def digitsToNat (ds : List Char) : ℕ :=
  ds.foldl (fun a c => 10 * a + digitVal c) 0

/-- Python `float()` on an unsigned literal over digits and `'.'`:
digits, an optional single `'.'`, digits, at least one digit in total and
no other characters; `none` models a raised `ValueError`.  (Only the
alphabet producible by the parser's regexes is relevant here.) -/
def pyFloatCore (cs : List Char) : Option ℚ :=
  let ip := cs.takeWhile isDigitCh
  let r1 := cs.drop ip.length
  match r1 with
  | [] => if ip.isEmpty then none else some (mkRat (digitsToNat ip) 1)
  | c :: r2 =>
    if c = '.' then
      let fp := r2.takeWhile isDigitCh
      if (r2.drop fp.length).isEmpty then
        if ip.isEmpty && fp.isEmpty then none
        else some (mkRat (digitsToNat (ip ++ fp)) (10 ^ fp.length))
      else none
    else none

/-- Python `float()` with an optional leading minus sign. -/
def pyFloat (cs : List Char) : Option ℚ :=
  match cs with
  | '-' :: r => (pyFloatCore r).map Neg.neg
  | _ => pyFloatCore cs

/-- Strip all trailing `'.'` characters, as `str.rstrip('.')` does. -/
def rstripDots (cs : List Char) : List Char :=
  (cs.reverse.dropWhile (fun c => c = '.')).reverse

/-- `LogParser.parse_number` (parse_logs.py lines 66-70): replace every
comma by a period, strip trailing periods, then convert with `float()`. -/
def parse_number (cs : List Char) : Option ℚ :=
  pyFloat (rstripDots (cs.map (fun c => if c = ',' then '.' else c)))

example : parse_number ("8,78".data) = some (mkRat 878 100) := by decide
example : parse_number ("8.78".data) = some (mkRat 878 100) := by decide
example : parse_number ("-2.0".data) = some (mkRat (-2) 1) := by decide
example : parse_number ("1,5".data) = some (mkRat 15 10) := by decide
example : parse_number ("5,".data) = some (mkRat 5 1) := by decide
example : parse_number ("--".data) = none := by decide
example : parse_number ("1.2.3".data) = none := by decide
example : mkRat 878 100 = (8.78 : ℚ) := by norm_num [Rat.mkRat_eq_div]

/-- The alternation literals of `improvement_marker` (parse_logs.py
lines 52-54). -/
def markerKeywords : List (List Char) :=
  ["IMPROVEMENT".data, "New best".data, "Confirmed improvement".data,
   "Accepting candidate".data, "NEW BEST".data, "GLOBAL BEST".data,
   "BASELINE".data]

/-- Match of `\*\*\*\s*(IMPROVEMENT|...)` anchored at the start of `cs`.
The alternatives all start with a letter, so the greedy `\s*` consuming all
whitespace is the only viable choice. -/
def markerAt (cs : List Char) : Bool :=
  match cs with
  | '*' :: '*' :: '*' :: r =>
    markerKeywords.any (fun k => k.isPrefixOf (r.dropWhile isPySpace))
  | _ => false

/-- `improvement_marker.search` (parse_logs.py line 116): the pattern
matches somewhere in the line. -/
def markerSearch : List Char → Bool
  | [] => false
  | c :: r => markerAt (c :: r) || markerSearch r

example : markerSearch ("*** NEW BEST".data) = true := by decide
example : markerSearch ("x ***IMPROVEMENT y".data) = true := by decide
example : markerSearch ("*** new best".data) = false := by decide
example : markerSearch ("  Weight = 1,5".data) = false := by decide

/-- `param_pattern.match` (parse_logs.py lines 55 and 121): the anchored
pattern `^\s+(\w+) = ([-\d,\.]+)`.  The greedy `\s+` and `\w+` take their
maximal runs (whitespace, word and value characters are pairwise disjoint
from their successors), then the literal `\" = \"` and a maximal nonempty
run of value characters must follow.  Returns the two capture groups. -/
def paramPatternMatch (cs : List Char) : Option (List Char × List Char) :=
  let ws := cs.takeWhile isPySpace
  if ws.isEmpty then none else
  let r1 := cs.drop ws.length
  let w := r1.takeWhile isWordCh
  if w.isEmpty then none else
  match r1.drop w.length with
  | ' ' :: '=' :: ' ' :: r2 =>
    let v := r2.takeWhile isValCh
    if v.isEmpty then none else some (w, v)
  | _ => none

example : paramPatternMatch ("  Weight = 1,5".data) =
    some ("Weight".data, "1,5".data) := by decide
example : paramPatternMatch ("  Other = -2.0".data) =
    some ("Other".data, "-2.0".data) := by decide
example : paramPatternMatch ("Weight = 1,5".data) = none := by decide
example : paramPatternMatch ("".data) = none := by decide
example : paramPatternMatch ("  X = --".data) =
    some ("X".data, "--".data) := by decide

/-- One candidate split for the regex fragment `(\d+(?:[.,]\d+)?)` at the
start of `cs`, in backtracking preference order: the greedy `\d+` takes the
maximal digit run; the optional fraction group is preferred taken.  Each
candidate is (captured text, remaining input). -/
def numCands (cs : List Char) : List (List Char × List Char) :=
  let ds := cs.takeWhile isDigitCh
  if ds.isEmpty then [] else
  match cs.drop ds.length with
  | [] => [(ds, [])]
  | c :: r2 =>
    if c = '.' || c = ',' then
      let fs := r2.takeWhile isDigitCh
      if fs.isEmpty then [(ds, c :: r2)]
      else [(ds ++ c :: fs, r2.drop fs.length), (ds, c :: r2)]
    else [(ds, c :: r2)]

/-- Consume a literal, or fail. -/
def litPrefix (lit : List Char) (cs : List Char) : Option (List Char) :=
  if lit.isPrefixOf cs then some (cs.drop lit.length) else none

/-- Capture groups 1-6 of `gen_pattern` (groups 5 and 6 optional). -/
structure GenGroups where
  g1 : List Char
  g2 : List Char
  g3 : List Char
  g4 : List Char
  g56 : Option (List Char × List Char)
deriving DecidableEq

/-- The optional group `(?:,\s*p95={num},\s*max={num})?` of `gen_pattern`
(parse_logs.py lines 48-50), tried at the current position; `none` means
the group is not taken (nothing follows it in the pattern, so greedy
matching takes it whenever it matches). -/
def genP95Part (cs : List Char) : Option (List Char × List Char) :=
  (litPrefix (",".data) cs).bind fun r1 =>
  (litPrefix ("p95=".data) (r1.dropWhile isPySpace)).bind fun r2 =>
  (numCands r2).findSome? fun g5 =>
  (litPrefix (",".data) g5.2).bind fun r3 =>
  (litPrefix ("max=".data) (r3.dropWhile isPySpace)).bind fun r4 =>
  (numCands r4).findSome? fun g6 =>
  some (g5.1, g6.1)

/-- The part of `gen_pattern` from `Fit:` on, anchored at `cs`:
`Fit:\s*{num}\s*\(mean={num},\s*var={num}` followed by the optional
p95/max group.  Returns groups 2, 3, 4 and optionally 5 and 6. -/
def genFitPart (cs : List Char) :
    Option (List Char × List Char × List Char × Option (List Char × List Char)) :=
  (litPrefix ("Fit:".data) cs).bind fun r0 =>
  (numCands (r0.dropWhile isPySpace)).findSome? fun g2 =>
  (litPrefix ("(mean=".data) (g2.2.dropWhile isPySpace)).bind fun r1 =>
  (numCands r1).findSome? fun g3 =>
  (litPrefix (",".data) g3.2).bind fun r2 =>
  (litPrefix ("var=".data) (r2.dropWhile isPySpace)).bind fun r3 =>
  (numCands r3).findSome? fun g4 =>
  some (g2.1, g3.1, g4.1, genP95Part g4.2)

/-- The lazy gap `.*?` of `gen_pattern` before `Fit:`: try the shortest
skip first; `.` does not cross a newline. -/
def genGap (cs : List Char) :
    Option (List Char × List Char × List Char × Option (List Char × List Char)) :=
  match genFitPart cs with
  | some g => some g
  | none =>
    match cs with
    | [] => none
    | c :: r => if c = '\n' then none else genGap r

/-- `gen_pattern` match anchored at `cs`: `Gen\s+{num}` then the lazy gap
and the `Fit:` part.  Returns all six capture groups (5 and 6 optional). -/
def genAt (cs : List Char) : Option GenGroups :=
  (litPrefix ("Gen".data) cs).bind fun r0 =>
  let ws := r0.takeWhile isPySpace
  if ws.isEmpty then none else
  (numCands (r0.drop ws.length)).findSome? fun g1 =>
  (genGap g1.2).map fun t => ⟨g1.1, t.1, t.2.1, t.2.2.1, t.2.2.2⟩

/-- `gen_pattern.search` (parse_logs.py line 104): leftmost match. -/
def genSearch : List Char → Option GenGroups
  | [] => none
  | c :: r =>
    match genAt (c :: r) with
    | some g => some g
    | none => genSearch r

example : genSearch ("Gen 5 - Fit: 10.5 (mean=12,3, var=2.1)".data) =
    some ⟨"5".data, "10.5".data, "12,3".data, "2.1".data, none⟩ := by decide
example : genSearch ("Gen 123 - Fit: 16.1234 (mean=19.42, var=9.50, p95=25.0, max=45)".data) =
    some ⟨"123".data, "16.1234".data, "19.42".data, "9.50".data,
      some ("25.0".data, "45".data)⟩ := by decide
example : genSearch ("*** NEW BEST".data) = none := by decide
example : genSearch ("  Weight = 1,5".data) = none := by decide

/-- One extracted improvement record (spec §3; parse_logs.py lines
130-139).  `generation` defaults to 0 and the five metric fields to `None`
until a generation line has been seen, so all five are optional. -/
structure ImprovementRecord where
  generation : ℕ
  fitness : Option ℚ
  mean : Option ℚ
  variance : Option ℚ
  p95 : Option ℚ
  max : Option ℚ
  params : List (List Char × ℚ)
deriving DecidableEq

/-- The parsing fields of `LogParser` (parse_logs.py lines 35-41): the
improvement list and the six rolling scalar fields. -/
structure ParseCore where
  improvements : List ImprovementRecord
  last_gen : ℕ
  last_fitness : Option ℚ
  last_mean : Option ℚ
  last_variance : Option ℚ
  last_p95 : Option ℚ
  last_max : Option ℚ
deriving DecidableEq

/-- The whole mutable state of a `LogParser` instance: the parsing fields
plus the byte offset `file_position` and the buffered trailing line
(source field `self.partial_line`, here `pendingLine`). -/
structure ParserState where
  core : ParseCore
  file_position : ℕ
  pendingLine : List Char
deriving DecidableEq

/-- Fresh parser state built by `LogParser.__init__` (lines 32-42). -/
def initCore : ParseCore := ⟨[], 0, none, none, none, none, none⟩

/-- Fresh full state of `LogParser.__init__`. -/
def initState : ParserState := ⟨initCore, 0, []⟩

/-- Python `dict` assignment `params[name] = value`: update in place if
the key exists, else append. -/
def dictInsert (k : List Char) (v : ℚ) (d : List (List Char × ℚ)) :
    List (List Char × ℚ) :=
  if d.any (fun p => p.1 = k) then
    d.map (fun p => if p.1 = k then (k, v) else p)
  else d ++ [(k, v)]

/-- The parameter-scan loop after an improvement marker (parse_logs.py
lines 118-128): walk the following lines with a 19-line budget, capture
parameter assignments, stop at a non-blank line that does not start with a
space, and raise (`none`) if a captured value fails numeric conversion. -/
def scanParams : ℕ → List (List Char) → List (List Char × ℚ) →
    Option (List (List Char × ℚ))
  | 0, _, acc => some acc
  | _ + 1, [], acc => some acc
  | fuel + 1, l :: ls, acc =>
    match paramPatternMatch l with
    | some (w, v) =>
      match parse_number v with
      | some q => scanParams fuel ls (dictInsert w q acc)
      | none => none
    | none =>
      if (l.any (fun c => !isPySpace c)) && l.head? ≠ some ' ' then some acc
      else scanParams fuel ls acc

/-- Values of the optional groups 5 and 6 (parse_logs.py lines 111-113):
`None` for each when the optional group is absent. -/
def genTail56 : Option (List Char × List Char) → Option (Option ℚ × Option ℚ)
  | none => some (none, none)
  | some (t5, t6) =>
    (parse_number t5).bind fun p5 =>
    (parse_number t6).map fun m6 => (some p5, some m6)

/-- The generation-line step of the loop body (parse_logs.py lines
104-113): on a `gen_pattern` match update the rolling fields; group 1 is
read with `int()` (which raises on a fractional generation), groups 5 and
6 reset `last_p95`/`last_max` to `None` when absent. -/
def genUpdate (l : List Char) (s : ParseCore) : Option ParseCore :=
  match genSearch l with
  | none => some s
  | some g =>
    if (g.g1.all isDigitCh) = false then none else
    (parse_number g.g2).bind fun f =>
    (parse_number g.g3).bind fun m =>
    (parse_number g.g4).bind fun v =>
    (genTail56 g.g56).map fun pm =>
      ⟨s.improvements, digitsToNat g.g1, some f, some m, some v, pm.1, pm.2⟩

/-- One iteration of the line loop (parse_logs.py lines 100-141) for line
`l` with the following lines `rest`: the generation check, then the
improvement-marker check with its parameter scan; a record is appended
only when the scan captured at least one parameter. -/
def processLine (l : List Char) (rest : List (List Char)) (s : ParseCore) :
    Option ParseCore :=
  (genUpdate l s).bind fun s1 =>
  if markerSearch l then
    match scanParams 19 rest [] with
    | none => none
    | some ps =>
      if ps.isEmpty then some s1
      else some { s1 with improvements := s1.improvements ++
        [⟨s1.last_gen, s1.last_fitness, s1.last_mean, s1.last_variance,
          s1.last_p95, s1.last_max, ps⟩] }
  else some s1

/-- The whole line loop: each line is processed in order; the scan after a
marker looks ahead into the remaining lines without consuming them. -/
def processLines : List (List Char) → ParseCore → Option ParseCore
  | [], s => some s
  | l :: rest, s => (processLine l rest s).bind (processLines rest)

/-- `str.split('\n')`: always returns at least one piece. -/
def splitNl : List Char → List (List Char)
  | [] => [[]]
  | c :: r =>
    let rest := splitNl r
    if c = '\n' then [] :: rest
    else
      match rest with
      | [] => [[c]]
      | h :: t => (c :: h) :: t

/-- The complete lines handed to the loop for one read (parse_logs.py
lines 88-97): buffered partial line plus new content, split on newlines;
the final piece is withheld when the read does not end in a newline. -/
def chunkLines (pending newContent : List Char) : List (List Char) :=
  if newContent.getLast? = some '\n' then splitNl (pending ++ newContent)
  else (splitNl (pending ++ newContent)).dropLast

/-- The new buffered partial line (parse_logs.py lines 93-97): the final
piece when the read does not end in a newline, empty otherwise. -/
def chunkPending (pending newContent : List Char) : List Char :=
  if newContent.getLast? = some '\n' then []
  else ((splitNl (pending ++ newContent)).getLast?).getD []

/-- `LogParser.parse_incremental` (parse_logs.py lines 72-143).  The file
is `none` when it does not exist, otherwise `some content`.  Reading seeks
to `file_position`, reads to the end and records `tell()` (which is
`max file_position length`, since a seek past the end stays put).  The new
content is prepended with the buffered partial line, split into lines, the
final piece is buffered again when the read does not end in a newline, and
the lines are fed through the loop.  Returns the new state and whether the
improvement count grew; `none` models an uncaught exception. -/
def parse_incremental (file : Option (List Char)) (s : ParserState) :
    Option (ParserState × Bool) :=
  match file with
  | none => some (s, false)
  | some content =>
    let newContent := content.drop s.file_position
    let fp := Max.max s.file_position content.length
    if newContent.isEmpty then some ({ s with file_position := fp }, false)
    else
      match processLines (chunkLines s.pendingLine newContent) s.core with
      | none => none
      | some p =>
        some (⟨p, fp, chunkPending s.pendingLine newContent⟩,
          decide (s.core.improvements.length < p.improvements.length))

/-- The worked example input of spec §8. -/
def c2Input : List Char :=
  ("Gen 5 - Fit: 10.5 (mean=12,3, var=2.1)\n*** NEW BEST\n  Weight = 1,5\n  Other = -2.0\n").data

/-- The record the worked example is expected to produce. -/
def c2Record : ImprovementRecord :=
  ⟨5, some (mkRat 105 10), some (mkRat 123 10), some (mkRat 21 10), none, none,
   [("Weight".data, mkRat 15 10), ("Other".data, mkRat (-2) 1)]⟩

/-- The full parser state after parsing the worked example from fresh. -/
def c2Final : ParserState :=
  ⟨⟨[c2Record], 5, some (mkRat 105 10), some (mkRat 123 10), some (mkRat 21 10),
    none, none⟩, c2Input.length, []⟩

/-- `genUpdate` never touches the improvement list. -/
theorem genUpdate_improvements {l : List Char} {s s1 : ParseCore}
    (h : genUpdate l s = some s1) : s1.improvements = s.improvements := by
  unfold genUpdate at h
  cases hg : genSearch l with
  | none => rw [hg] at h; cases h; rfl
  | some g =>
    rw [hg] at h
    simp only at h
    split at h
    · cases h
    · simp only [Option.bind_eq_some, Option.map_eq_some'] at h
      obtain ⟨f, _, m, _, v, _, pm, _, h⟩ := h
      cases h; rfl

/-- `processLine` only ever appends to the improvement list. -/
theorem processLine_appendOnly {l : List Char} {rest : List (List Char)}
    {s s' : ParseCore} (h : processLine l rest s = some s') :
    s.improvements <+: s'.improvements := by
  unfold processLine at h
  simp only [Option.bind_eq_some] at h
  obtain ⟨s1, h1, h⟩ := h
  have e1 := genUpdate_improvements h1
  by_cases hm : markerSearch l
  · simp only [hm, if_true] at h
    cases hs : scanParams 19 rest [] with
    | none => rw [hs] at h; cases h
    | some ps =>
      rw [hs] at h
      by_cases hp : ps.isEmpty
      · simp only [hp, if_true] at h; cases h
        exact e1 ▸ List.prefix_rfl
      · simp only [hp, if_false] at h; cases h
        exact e1 ▸ List.prefix_append _ _
  · simp only [hm, if_false] at h; cases h
    exact e1 ▸ List.prefix_rfl

/-- `processLines` only ever appends to the improvement list. -/
theorem processLines_appendOnly {ls : List (List Char)} {s s' : ParseCore}
    (h : processLines ls s = some s') : s.improvements <+: s'.improvements := by
  induction ls generalizing s with
  | nil => cases h; exact List.prefix_rfl
  | cons l rest ih =>
    unfold processLines at h
    simp only [Option.bind_eq_some] at h
    obtain ⟨s1, h1, h2⟩ := h
    exact (processLine_appendOnly h1).trans (ih h2)

/-- Claim C8: append-only invariant.  Whenever `parse_incremental` returns,
the improvement sequence held before the call is a prefix of the sequence
held after it: records are only appended, never mutated, reordered or
removed. -/
theorem C8_append_only {file : Option (List Char)} {s : ParserState}
    {s' : ParserState} {r : Bool} (h : parse_incremental file s = some (s', r)) :
    s.core.improvements <+: s'.core.improvements := by
  unfold parse_incremental at h
  cases file with
  | none => cases h; exact List.prefix_rfl
  | some content =>
    simp only at h
    split at h
    · cases h; exact List.prefix_rfl
    · split at h
      · cases h
      · next p hp => cases h; exact processLines_appendOnly hp

/-- Witness for C8 at a concrete run: the worked example grows `[]` to a
one-record sequence. -/
theorem C8_append_only_witness :
    initState.core.improvements <+: c2Final.core.improvements :=
  @C8_append_only (some c2Input) initState c2Final true (by decide)

/-- A read with no new bytes (offset at or past the end of the file) is a
no-op returning `false`: the dropped content is empty, so the early return
fires and `tell()` leaves the offset where it was. -/
theorem parse_incremental_noop {s : ParserState} {content : List Char}
    (hle : content.length <= s.file_position) :
    parse_incremental (some content) s = some (s, false) := by
  have hd : content.drop s.file_position = [] := List.drop_eq_nil_of_le hle
  have hm : Max.max s.file_position content.length = s.file_position :=
    Nat.max_eq_left hle
  unfold parse_incremental
  simp [hd, hm]

/-- Claim C4: return-value contract.  A call that returns reports `true`
exactly when the improvement count grew during that call (equivalently,
since the sequence is append-only, when at least one record was appended);
and a missing file or a read with no new bytes (no data yet, empty file,
or offset at or past the end) is a no-op returning `false` with the parser
state unchanged. -/
theorem C4_return_contract :
    (∀ s : ParserState, parse_incremental none s = some (s, false)) ∧
    (∀ (s : ParserState) (content : List Char),
      content.length ≤ s.file_position →
      parse_incremental (some content) s = some (s, false)) ∧
    (∀ (file : Option (List Char)) (s s' : ParserState) (r : Bool),
      parse_incremental file s = some (s', r) →
      r = decide (s.core.improvements.length < s'.core.improvements.length)) := by
  refine ⟨fun s => rfl, fun s content hle => parse_incremental_noop hle,
    fun file s s' r h => ?_⟩
  · cases file with
    | none =>
      unfold parse_incremental at h
      cases h
      simp
    | some content =>
      unfold parse_incremental at h
      simp only at h
      split at h
      · cases h; simp
      · split at h
        · cases h
        · cases h; rfl

/-- Witness for C4 at concrete inputs: a missing file and an empty file
are no-ops returning `false`, and the returned flag matches the growth of
the improvement count. -/
theorem C4_return_contract_witness :
    parse_incremental none initState = some (initState, false) ∧
    parse_incremental (some []) initState = some (initState, false) ∧
    false = decide (initState.core.improvements.length <
      initState.core.improvements.length) :=
  ⟨C4_return_contract.1 initState,
   C4_return_contract.2.1 initState [] (by decide),
   C4_return_contract.2.2 none initState initState false
     (C4_return_contract.1 initState)⟩

/-- Claim C10: implicit truncation behavior.  Once the saved offset
exceeds the current file length, a call reads zero bytes, returns `false`,
appends nothing and leaves the state - in particular the offset, which is
never reset to 0 - exactly as it was; since the state is unchanged, every
subsequent call on a file that stays shorter than the offset does the
same, so rewritten content is silently never parsed. -/
theorem C10_truncation_never_reparsed (s : ParserState) (content : List Char)
    (h : content.length < s.file_position) :
    parse_incremental (some content) s = some (s, false) :=
  parse_incremental_noop (Nat.le_of_lt h)

/-- Witness for C10: a parser at offset 5 on a file truncated to 2 bytes
is stuck unchanged. -/
theorem C10_truncation_never_reparsed_witness :
    parse_incremental (some ("ab".data)) ⟨initCore, 5, []⟩ =
      some (⟨initCore, 5, []⟩, false) :=
  C10_truncation_never_reparsed ⟨initCore, 5, []⟩ ("ab".data) (by decide)

/-- Claim C2: the worked example of spec §8.  Feeding the four-line input
to a fresh parser appends exactly one record with generation 5, fitness
10.5, mean 12.3, variance 2.1, no p95, no max, and params Weight = 1.5 and
Other = -2.0 (the `mkRat` values used in the record are spelled out as the
corresponding decimal rationals in the trailing conjuncts). -/
theorem C2_worked_example :
    parse_incremental (some c2Input) initState = some (c2Final, true) ∧
    c2Final.core.improvements = [c2Record] ∧
    mkRat 105 10 = (10.5 : ℚ) ∧ mkRat 123 10 = (12.3 : ℚ) ∧
    mkRat 21 10 = (2.1 : ℚ) ∧ mkRat 15 10 = (1.5 : ℚ) ∧
    mkRat (-2) 1 = (-2.0 : ℚ) :=
  ⟨by decide, by decide,
   by norm_num [Rat.mkRat_eq_div], by norm_num [Rat.mkRat_eq_div],
   by norm_num [Rat.mkRat_eq_div], by norm_num [Rat.mkRat_eq_div],
   by norm_num [Rat.mkRat_eq_div]⟩

/-- Claim C7: malformed-number behavior.  The line `"  X = --"` matches
the parameter pattern with value text `"--"`, that text fails numeric
conversion, and on an input containing it after a marker,
`parse_incremental` propagates the exception (modelled as `none`) instead
of skipping the line. -/
theorem C7_malformed_number_raises :
    paramPatternMatch ("  X = --".data) = some ("X".data, "--".data) ∧
    parse_number ("--".data) = none ∧
    parse_incremental (some (("*** NEW BEST\n  X = --\n").data)) initState =
      none :=
  ⟨by decide, by decide, by decide⟩

/-- Claim C6: bare-marker policy.  When the scan window after a marker
line captures no parameters, the line's whole effect is just its
generation-check: no record is appended and the marker step changes
nothing; in particular for a marker line that is not also a generation
line the state is completely unchanged, so the rolling scalar fields stay
available for the next marker. -/
theorem C6_bare_marker (l : List Char) (rest : List (List Char))
    (s : ParseCore) (hm : markerSearch l = true)
    (hscan : scanParams 19 rest [] = some []) :
    processLine l rest s = genUpdate l s ∧
    (genSearch l = none → processLine l rest s = some s) := by
  have h1 : processLine l rest s = genUpdate l s := by
    unfold processLine
    cases hg : genUpdate l s with
    | none => rfl
    | some s1 =>
      simp only [Option.bind_some, hm, if_true, hscan, List.isEmpty_nil]
  refine ⟨h1, fun hnone => ?_⟩
  rw [h1]
  unfold genUpdate
  rw [hnone]

/-- Witness for C6: a bare `*** NEW BEST` marker followed by an unindented
line leaves a fresh parser state untouched. -/
theorem C6_bare_marker_witness :
    processLine ("*** NEW BEST".data) [("end".data)] initCore =
      genUpdate ("*** NEW BEST".data) initCore ∧
    (genSearch ("*** NEW BEST".data) = none →
      processLine ("*** NEW BEST".data) [("end".data)] initCore =
        some initCore) :=
  C6_bare_marker ("*** NEW BEST".data) [("end".data)] initCore
    (by decide) (by decide)

/-- Digit rendering for an abstract numeric literal. -/
def digitCh (d : Fin 10) : Char := Char.ofNat (48 + d.val)

/-- An abstract numeric literal - optional minus sign, integer digits,
optional fractional digits - rendered with the given decimal separator. -/
def renderNumLit (sep : Char) (neg : Bool) (ip : List (Fin 10))
    (fp : Option (List (Fin 10))) : List Char :=
  (if neg then ['-'] else []) ++ ip.map digitCh ++
    (match fp with
     | none => []
     | some ds => sep :: ds.map digitCh)

/-- Claim C3: decimal-separator equivalence.  For every numeric literal,
`parse_number` returns the same value on the comma-separated variant as on
the period-separated variant: the normalization step maps both variants to
the same character string.  In particular `"8,78"` and `"8.78"` both parse
to 8.78. -/
theorem C3_decimal_separator_equivalence :
    (∀ (neg : Bool) (ip : List (Fin 10)) (fp : Option (List (Fin 10))),
      parse_number (renderNumLit ',' neg ip fp) =
        parse_number (renderNumLit '.' neg ip fp)) ∧
    parse_number ("8,78".data) = some (mkRat 878 100) ∧
    parse_number ("8.78".data) = some (mkRat 878 100) ∧
    mkRat 878 100 = (8.78 : ℚ) := by
  refine ⟨fun neg ip fp => ?_, by decide, by decide,
    by norm_num [Rat.mkRat_eq_div]⟩
  have hpt : ∀ d : Fin 10,
      (if digitCh d = ',' then '.' else digitCh d) = digitCh d := by decide
  have hdig : ∀ ds : List (Fin 10),
      (ds.map digitCh).map (fun c => if c = ',' then '.' else c) =
        ds.map digitCh := by
    intro ds
    rw [List.map_map]
    exact List.map_congr_left (fun d _ => hpt d)
  have key : (renderNumLit ',' neg ip fp).map (fun c => if c = ',' then '.' else c) =
      (renderNumLit '.' neg ip fp).map (fun c => if c = ',' then '.' else c) := by
    unfold renderNumLit
    cases fp with
    | none => rfl
    | some ds =>
      simp only [List.map_append, hdig, List.map_cons]
      rfl
  unfold parse_number
  rw [key]

/-- A line's captured parameter pair, when it is a parameter line with a
convertible value. -/
def paramOf (l : List Char) : Option (List Char × ℚ) :=
  (paramPatternMatch l).bind fun wv =>
  (parse_number wv.2).map fun q => (wv.1, q)

/-- `dictInsert` with a fresh key appends. -/
theorem dictInsert_of_fresh {k : List Char} {v : ℚ}
    {d : List (List Char × ℚ)} (h : ∀ q ∈ d, q.1 ≠ k) :
    dictInsert k v d = d ++ [(k, v)] := by
  unfold dictInsert
  have : d.any (fun p => p.1 = k) = false := by
    rw [List.any_eq_false]
    intro p hp
    simpa using h p hp
  rw [this]
  simp

/-- Folding `dictInsert` over pairs with pairwise-fresh keys appends them
all in order. -/
theorem foldl_dictInsert_fresh :
    ∀ (ps : List (List Char × ℚ)) (acc : List (List Char × ℚ)),
      (∀ p ∈ ps, ∀ q ∈ acc, p.1 ≠ q.1) → (ps.map Prod.fst).Nodup →
      ps.foldl (fun a p => dictInsert p.1 p.2 a) acc = acc ++ ps := by
  intro ps
  induction ps with
  | nil => intro acc _ _; simp
  | cons p ps' ih =>
    intro acc hd hn
    have h1 : dictInsert p.1 p.2 acc = acc ++ [p] :=
      dictInsert_of_fresh
        (fun q hq => (hd p (List.mem_cons_self p ps') q hq).symm)
    rw [List.foldl_cons, h1]
    rw [List.map_cons, List.nodup_cons] at hn
    have hd' : ∀ x ∈ ps', ∀ q ∈ acc ++ [p], x.1 ≠ q.1 := by
      intro x hx q hq
      rcases List.mem_append.mp hq with hq | hq
      · exact hd x (List.mem_cons_of_mem p hx) q hq
      · have : q = p := by simpa using hq
        subst this
        intro he
        exact hn.1 (he ▸ List.mem_map_of_mem Prod.fst hx)
    rw [ih (acc ++ [p]) hd' hn.2]
    simp

/-- When the first `fuel` lines are all parameter lines with convertible
values, the scan consumes exactly its budget and accumulates their pairs. -/
theorem scanParams_all_params :
    ∀ (fuel : ℕ) (ls : List (List Char)) (acc : List (List Char × ℚ)),
      (∀ l ∈ ls.take fuel, (paramOf l).isSome = true) →
      scanParams fuel ls acc =
        some (((ls.take fuel).filterMap paramOf).foldl
          (fun a p => dictInsert p.1 p.2 a) acc) := by
  intro fuel
  induction fuel with
  | zero => intro ls acc _; simp [scanParams]
  | succ n ih =>
    intro ls acc h
    cases ls with
    | nil => simp [scanParams]
    | cons l ls' =>
      have hl : (paramOf l).isSome = true := h l (by simp)
      cases hpm : paramPatternMatch l with
      | none => rw [paramOf, hpm] at hl; cases hl
      | some wv =>
        obtain ⟨w0, v0⟩ := wv
        cases hq : parse_number v0 with
        | none =>
          rw [paramOf, hpm] at hl
          rw [show ((some (w0, v0)).bind fun wv =>
              (parse_number wv.2).map fun q => (wv.1, q)) =
              ((parse_number v0).map fun q => (w0, q)) from rfl] at hl
          rw [hq] at hl
          cases hl
        | some q0 =>
          have hpl : paramOf l = some (w0, q0) := by
            rw [paramOf, hpm]
            rw [show ((some (w0, v0)).bind fun wv =>
                (parse_number wv.2).map fun q => (wv.1, q)) =
                ((parse_number v0).map fun q => (w0, q)) from rfl]
            rw [hq]
            rfl
          have hstep : scanParams (n + 1) (l :: ls') acc =
              scanParams n ls' (dictInsert w0 q0 acc) := by
            simp only [scanParams, hpm, hq]
          rw [hstep]
          have h' : ∀ x ∈ ls'.take n, (paramOf x).isSome = true := by
            intro x hx
            exact h x (by simpa using Or.inr hx)
          rw [ih ls' (dictInsert w0 q0 acc) h']
          simp [List.take_succ_cons, List.filterMap_cons, hpl]

/-- When every line of the list is a parameter line, `filterMap paramOf`
keeps them all. -/
theorem filterMap_paramOf_length :
    ∀ ls : List (List Char), (∀ l ∈ ls, (paramOf l).isSome = true) →
      (ls.filterMap paramOf).length = ls.length := by
  intro ls
  induction ls with
  | nil => intro _; rfl
  | cons l ls' ih =>
    intro h
    have hl : (paramOf l).isSome = true := h l (by simp)
    rw [Option.isSome_iff_exists] at hl
    obtain ⟨p, hp⟩ := hl
    rw [List.filterMap_cons, hp]
    simp only [List.length_cons]
    rw [ih (fun x hx => h x (List.mem_cons_of_mem l hx))]

/-- The scan stops at the first non-blank line that does not start with a
space, no matter how many lines (or how much budget) remain. -/
theorem scanParams_stops_at_break :
    ∀ (a : List (List Char)) (fuel : ℕ) (b : List Char)
      (c : List (List Char)) (acc : List (List Char × ℚ)),
      (∀ l ∈ a, (paramOf l).isSome = true) → a.length < fuel →
      paramPatternMatch b = none → (b.any fun ch => !isPySpace ch) = true →
      b.head? ≠ some ' ' →
      scanParams fuel (a ++ b :: c) acc =
        some ((a.filterMap paramOf).foldl
          (fun ac p => dictInsert p.1 p.2 ac) acc) := by
  intro a
  induction a with
  | nil =>
    intro fuel b c acc _ hlen hb1 hb2 hb3
    cases fuel with
    | zero => omega
    | succ n =>
      simp only [List.nil_append, scanParams, hb1]
      rw [if_pos]
      · simp
      · rw [hb2]
        simpa using hb3
  | cons l a' ih =>
    intro fuel b c acc ha hlen hb1 hb2 hb3
    cases fuel with
    | zero => omega
    | succ n =>
      have hl : (paramOf l).isSome = true := ha l (by simp)
      cases hpm : paramPatternMatch l with
      | none => rw [paramOf, hpm] at hl; cases hl
      | some wv =>
        obtain ⟨w0, v0⟩ := wv
        cases hq : parse_number v0 with
        | none =>
          rw [paramOf, hpm] at hl
          rw [show ((some (w0, v0)).bind fun wv =>
              (parse_number wv.2).map fun q => (wv.1, q)) =
              ((parse_number v0).map fun q => (w0, q)) from rfl] at hl
          rw [hq] at hl
          cases hl
        | some q0 =>
          have hpl : paramOf l = some (w0, q0) := by
            rw [paramOf, hpm]
            rw [show ((some (w0, v0)).bind fun wv =>
                (parse_number wv.2).map fun q => (wv.1, q)) =
                ((parse_number v0).map fun q => (w0, q)) from rfl]
            rw [hq]
            rfl
          have hstep : scanParams (n + 1) ((l :: a') ++ b :: c) acc =
              scanParams n (a' ++ b :: c) (dictInsert w0 q0 acc) := by
            simp only [List.cons_append, scanParams, hpm, hq]
            rfl
          rw [hstep]
          have hlen' : a'.length < n := by
            simp only [List.length_cons] at hlen
            omega
          rw [ih n b c (dictInsert w0 q0 acc)
            (fun x hx => ha x (List.mem_cons_of_mem l hx)) hlen' hb1 hb2 hb3]
          simp [List.filterMap_cons, hpl]

/-- Claim C5: scan-window bound.  First conjunct: a marker followed by 20
or more parameter lines (with pairwise distinct names among the first 19)
appends exactly one record whose params are precisely the pairs of the
first 19 lines after the marker - nothing from line 20 onward.  Second
conjunct: the scan stops early at the first non-indented, non-blank line
regardless of remaining budget, capturing only what came before it. -/
theorem C5_scan_window_bound :
    (∀ (l : List Char) (rest : List (List Char)) (s s1 : ParseCore),
      markerSearch l = true → genUpdate l s = some s1 →
      (∀ x ∈ rest.take 20, (paramOf x).isSome = true) → 20 ≤ rest.length →
      (((rest.take 19).filterMap paramOf).map Prod.fst).Nodup →
      processLine l rest s = some { s1 with improvements :=
        s1.improvements ++ [⟨s1.last_gen, s1.last_fitness, s1.last_mean,
          s1.last_variance, s1.last_p95, s1.last_max,
          (rest.take 19).filterMap paramOf⟩] }) ∧
    (∀ (a : List (List Char)) (b : List Char) (c : List (List Char)),
      (∀ x ∈ a, (paramOf x).isSome = true) → a.length < 19 →
      paramPatternMatch b = none → (b.any fun ch => !isPySpace ch) = true →
      b.head? ≠ some ' ' →
      ((a.filterMap paramOf).map Prod.fst).Nodup →
      scanParams 19 (a ++ b :: c) [] = some (a.filterMap paramOf)) := by
  constructor
  · intro l rest s s1 hm hg h20 hlen hnd
    have htq : rest.take 19 = (rest.take 20).take 19 := by
      rw [List.take_take]
      norm_num
    have h19 : ∀ x ∈ rest.take 19, (paramOf x).isSome = true := by
      intro x hx
      exact h20 x (List.take_subset 19 (rest.take 20) (htq ▸ hx))
    have hscan : scanParams 19 rest [] =
        some ((rest.take 19).filterMap paramOf) := by
      rw [scanParams_all_params 19 rest [] h19,
        foldl_dictInsert_fresh _ [] (by simp) hnd]
      rfl
    have hne : ((rest.take 19).filterMap paramOf).isEmpty = false := by
      have hlq : ((rest.take 19).filterMap paramOf).length = 19 := by
        rw [filterMap_paramOf_length _ h19, List.length_take]
        omega
      cases hq : (rest.take 19).filterMap paramOf with
      | nil => rw [hq] at hlq; cases hlq
      | cons x xs => rfl
    unfold processLine
    rw [hg]
    simp only [Option.bind_some, hm, if_true, hscan, hne]
    simp
  · intro a b c ha hlen hb1 hb2 hb3 hnd
    rw [scanParams_stops_at_break a 19 b c [] ha hlen hb1 hb2 hb3,
      foldl_dictInsert_fresh _ [] (by simp) hnd]
    rfl

/-- Twenty indented parameter lines with distinct names. -/
def c5Rest : List (List Char) :=
  [("  A = 1").data, ("  B = 2").data, ("  C = 3").data, ("  D = 4").data,
   ("  E = 5").data, ("  F = 6").data, ("  G = 7").data, ("  H = 8").data,
   ("  I = 9").data, ("  J = 10").data, ("  K = 11").data, ("  L = 12").data,
   ("  M = 13").data, ("  N = 14").data, ("  O = 15").data, ("  P = 16").data,
   ("  Q = 17").data, ("  R = 18").data, ("  S = 19").data, ("  T = 20").data]

/-- Witness for C5: a marker followed by the 20 parameter lines captures
exactly the first 19 of them (19 pairs, so name `T` from line 20 is
absent), and the scan stops at an unindented `end` line even with budget
left and a parameter line behind it. -/
theorem C5_scan_window_bound_witness :
    (processLine ("*** NEW BEST".data) c5Rest initCore =
      some { initCore with improvements := initCore.improvements ++
        [⟨initCore.last_gen, initCore.last_fitness, initCore.last_mean,
          initCore.last_variance, initCore.last_p95, initCore.last_max,
          (c5Rest.take 19).filterMap paramOf⟩] }) ∧
    ((c5Rest.take 19).filterMap paramOf).length = 19 ∧
    (scanParams 19 ([("  A = 1").data] ++ ("end").data :: [("  Z = 9").data]) [] =
      some ([("  A = 1").data].filterMap paramOf)) ∧
    ([("  A = 1").data].filterMap paramOf).length = 1 :=
  ⟨C5_scan_window_bound.1 ("*** NEW BEST".data) c5Rest initCore initCore
      (by decide) (by decide) (by decide) (by decide) (by decide),
   by decide,
   C5_scan_window_bound.2 [("  A = 1").data] ("end").data [("  Z = 9").data]
      (by decide) (by decide) (by decide) (by decide) (by decide) (by decide),
   by decide⟩

/-- Python string comparison on the file names: code-point lexicographic,
with a proper prefix comparing smaller. -/
def lexLe : List Char → List Char → Bool
  | [], _ => true
  | _ :: _, [] => false
  | a :: as, b :: bs =>
    if a.toNat < b.toNat then true
    else if b.toNat < a.toNat then false
    else lexLe as bs

theorem lexLe_refl : ∀ a, lexLe a a = true := by
  intro a
  induction a with
  | nil => rfl
  | cons x as ih =>
    simp only [lexLe]
    rw [if_neg (Nat.lt_irrefl _), if_neg (Nat.lt_irrefl _)]
    exact ih

theorem lexLe_total : ∀ a b, lexLe a b = true ∨ lexLe b a = true := by
  intro a
  induction a with
  | nil => intro b; exact Or.inl rfl
  | cons x as ih =>
    intro b
    cases b with
    | nil => exact Or.inr rfl
    | cons y bs =>
      simp only [lexLe]
      rcases Nat.lt_trichotomy x.toNat y.toNat with h | h | h
      · left; rw [if_pos h]
      · rcases ih bs with h2 | h2
        · left
          rw [if_neg (by omega), if_neg (by omega)]
          exact h2
        · right
          rw [if_neg (by omega), if_neg (by omega)]
          exact h2
      · right; rw [if_pos h]

theorem lexLe_trans : ∀ a b c, lexLe a b = true → lexLe b c = true →
    lexLe a c = true := by
  intro a
  induction a with
  | nil => intro b c _ _; rfl
  | cons x as ih =>
    intro b c hab hbc
    cases b with
    | nil => simp [lexLe] at hab
    | cons y bs =>
      cases c with
      | nil => simp [lexLe] at hbc
      | cons z cs =>
        simp only [lexLe] at hab hbc ⊢
        by_cases h1 : x.toNat < y.toNat
        · by_cases h2 : y.toNat < z.toNat
          · rw [if_pos (by omega)]
          · by_cases h3 : z.toNat < y.toNat
            · rw [if_neg h2, if_pos h3] at hbc; cases hbc
            · rw [if_pos (by omega)]
        · by_cases h4 : y.toNat < x.toNat
          · rw [if_neg h1, if_pos h4] at hab; cases hab
          · by_cases h2 : y.toNat < z.toNat
            · rw [if_pos (by omega)]
            · by_cases h3 : z.toNat < y.toNat
              · rw [if_neg h2, if_pos h3] at hbc; cases hbc
              · rw [if_neg (by omega), if_neg (by omega)]
                rw [if_neg h1, if_neg h4] at hab
                rw [if_neg h2, if_neg h3] at hbc
                exact ih bs cs hab hbc

/-- `lexLe` as a relation, for `List.insertionSort`. -/
def lexR (a b : List Char) : Prop := lexLe a b = true

instance : DecidableRel lexR :=
  fun a b => inferInstanceAs (Decidable (lexLe a b = true))

instance : IsTotal (List Char) lexR := ⟨lexLe_total⟩

instance : IsTrans (List Char) lexR := ⟨fun a b c => lexLe_trans a b c⟩

/-- The glob pattern `genetic_optimizer_*.txt` of `main` (parse_logs.py
line 575) on a file name in the logs directory. -/
def matchesLogPattern (name : List Char) : Bool :=
  (("genetic_optimizer_").data).isPrefixOf name &&
    ((".txt").data).isSuffixOf (name.drop 18)

/-- The file selection of `main` with no positional argument (parse_logs.py
lines 574-580): sort the matching names (paths share the directory, so
Python's `Path` order is the names' string order) and take the last;
`none` models the no-files fatal exit. -/
def mainSelect (listing : List (List Char)) : Option (List Char) :=
  (List.insertionSort lexR (listing.filter matchesLogPattern)).getLast?

/-- Modelled from the spec: "the most recently modified matching file in a
conventional log directory is selected" (spec §6; the source code has no
modification-time lookup, so the spec reading is modelled here for
comparison).  Files are paired with their modification times. -/
def specMostRecentlyModified (files : List (List Char × ℕ)) :
    Option (List Char) :=
  ((files.filter fun f => matchesLogPattern f.1).foldl
    (fun acc f =>
      match acc with
      | none => some f
      | some g => if g.2 < f.2 then some f else some g) none).map Prod.fst

/-- A nonempty list has a last element. -/
theorem getLast?_cons_ne_none (x : List Char) (xs : List (List Char)) :
    (x :: xs).getLast? ≠ none := by
  induction xs generalizing x with
  | nil => simp
  | cons y ys ih => intro h; rw [List.getLast?_cons_cons] at h; exact ih y h

/-- In a `lexR`-sorted list the last element is a greatest element. -/
theorem sorted_getLast?_greatest :
    ∀ (l : List (List Char)) (m : List Char), List.Sorted lexR l →
      l.getLast? = some m → m ∈ l ∧ ∀ g ∈ l, lexLe g m = true := by
  intro l
  induction l with
  | nil => intro m _ h; cases h
  | cons a l' ih =>
    intro m hs hl
    cases l' with
    | nil =>
      have hma : m = a := by simpa using hl.symm
      subst hma
      refine ⟨by simp, fun g hg => ?_⟩
      have : g = m := by simpa using hg
      subst this
      exact lexLe_refl g
    | cons b l'' =>
      rw [List.getLast?_cons_cons] at hl
      obtain ⟨hm, hall⟩ := ih m hs.of_cons hl
      refine ⟨List.mem_cons_of_mem a hm, fun g hg => ?_⟩
      rcases List.mem_cons.mp hg with rfl | hg'
      · exact List.rel_of_sorted_cons hs m hm
      · exact hall g hg'

/-- Claim C9 (amended): with no positional argument, `main` selects the
lexicographically greatest (by code point) name among the files matching
`genetic_optimizer_*.txt` - the last element of the sorted list - and
reports failure (here `none`) exactly when no file matches.  It does not
consult modification times. -/
theorem C9_lex_last_selected (listing : List (List Char)) :
    (mainSelect listing = none ↔ listing.filter matchesLogPattern = []) ∧
    (∀ m, mainSelect listing = some m →
      (m ∈ listing ∧ matchesLogPattern m = true) ∧
      ∀ g ∈ listing, matchesLogPattern g = true → lexLe g m = true) := by
  constructor
  · constructor
    · intro h
      unfold mainSelect at h
      cases hsl : List.insertionSort lexR (listing.filter matchesLogPattern) with
      | nil =>
        have hp := List.perm_insertionSort lexR (listing.filter matchesLogPattern)
        rw [hsl] at hp
        exact hp.symm.eq_nil
      | cons x xs =>
        rw [hsl] at h
        exact absurd h (getLast?_cons_ne_none x xs)
    · intro h
      unfold mainSelect
      rw [h]
      rfl
  · intro m hm
    unfold mainSelect at hm
    have hperm := List.perm_insertionSort lexR (listing.filter matchesLogPattern)
    have hsorted := List.sorted_insertionSort lexR (listing.filter matchesLogPattern)
    obtain ⟨hmem, hmax⟩ := sorted_getLast?_greatest _ m hsorted hm
    have hmem' : m ∈ listing.filter matchesLogPattern := hperm.mem_iff.mp hmem
    rw [List.mem_filter] at hmem'
    refine ⟨⟨hmem'.1, hmem'.2⟩, fun g hg hgp => ?_⟩
    have hgf : g ∈ listing.filter matchesLogPattern :=
      List.mem_filter.mpr ⟨hg, hgp⟩
    exact hmax g (hperm.mem_iff.mpr hgf)

/-- The lexicographically larger but older file name. -/
def c9NameB : List Char := ("genetic_optimizer_b.txt").data

/-- The lexicographically smaller but most recently modified file name. -/
def c9NameA : List Char := ("genetic_optimizer_a.txt").data

/-- Counterexample to C9 as stated: with two matching files where the
lexicographically greatest name (`..._b`) is older (mtime 1) and `..._a`
is the most recently modified (mtime 2), `main`'s selection picks `..._b`,
which is not the most recently modified file. -/
theorem C9_counterexample :
    mainSelect [c9NameB, c9NameA] = some c9NameB ∧
    specMostRecentlyModified [(c9NameB, 1), (c9NameA, 2)] = some c9NameA ∧
    c9NameB ≠ c9NameA :=
  ⟨by decide, by decide, by decide⟩

/-- Witness for the amended C9 at the two-file listing: the selected name
matches the pattern, is in the listing and is lexicographically greatest. -/
theorem C9_lex_last_selected_witness :
    (c9NameB ∈ [c9NameB, c9NameA] ∧ matchesLogPattern c9NameB = true) ∧
    lexLe c9NameA c9NameB = true :=
  ⟨((C9_lex_last_selected [c9NameB, c9NameA]).2 c9NameB (by decide)).1,
   ((C9_lex_last_selected [c9NameB, c9NameA]).2 c9NameB (by decide)).2
     c9NameA (by decide) (by decide)⟩

/-- The parameter scan from a given suffix is insensitive to lines beyond
that suffix: it stops by exhausting its budget, by hitting a terminator
line, or by raising - `false` exactly when it runs out of lines with
budget to spare. -/
def scanStops : ℕ → List (List Char) → Bool
  | 0, _ => true
  | _ + 1, [] => false
  | fuel + 1, l :: ls =>
    match paramPatternMatch l with
    | some (_, v) =>
      match parse_number v with
      | some _ => scanStops fuel ls
      | none => true
    | none =>
      if (l.any (fun c => !isPySpace c)) && l.head? ≠ some ' ' then true
      else scanStops fuel ls

/-- Every marker line of the list has its parameter scan resolved inside
the list itself. -/
def markersClosed : List (List Char) → Bool
  | [] => true
  | l :: rest => (!markerSearch l || scanStops 19 rest) && markersClosed rest

/-- When the scan stops within `ls`, appending further lines does not
change its result. -/
theorem scanParams_extend :
    ∀ (fuel : ℕ) (ls ext : List (List Char)) (acc : List (List Char × ℚ)),
      scanStops fuel ls = true →
      scanParams fuel (ls ++ ext) acc = scanParams fuel ls acc := by
  intro fuel
  induction fuel with
  | zero => intro ls ext acc _; rfl
  | succ n ih =>
    intro ls ext acc hs
    cases ls with
    | nil => cases hs
    | cons l ls' =>
      cases hpm : paramPatternMatch l with
      | some wv =>
        obtain ⟨w, v⟩ := wv
        cases hq : parse_number v with
        | some q =>
          have hs' : scanStops n ls' = true := by
            simp only [scanStops, hpm, hq] at hs
            exact hs
          have e1 : scanParams (n + 1) ((l :: ls') ++ ext) acc =
              scanParams n (ls' ++ ext) (dictInsert w q acc) := by
            simp only [List.cons_append, scanParams, hpm, hq]
            rfl
          have e2 : scanParams (n + 1) (l :: ls') acc =
              scanParams n ls' (dictInsert w q acc) := by
            simp only [scanParams, hpm, hq]
          rw [e1, e2, ih ls' ext _ hs']
        | none =>
          have e1 : scanParams (n + 1) ((l :: ls') ++ ext) acc = none := by
            simp only [List.cons_append, scanParams, hpm, hq]
          have e2 : scanParams (n + 1) (l :: ls') acc = none := by
            simp only [scanParams, hpm, hq]
          rw [e1, e2]
      | none =>
        by_cases hbr :
            ((l.any (fun c => !isPySpace c)) && decide (l.head? ≠ some ' ')) = true
        · have e1 : scanParams (n + 1) ((l :: ls') ++ ext) acc = some acc := by
            simp only [List.cons_append, scanParams, hpm]
            rw [if_pos hbr]
          have e2 : scanParams (n + 1) (l :: ls') acc = some acc := by
            simp only [scanParams, hpm]
            rw [if_pos hbr]
          rw [e1, e2]
        · have hs' : scanStops n ls' = true := by
            simp only [scanStops, hpm] at hs
            rw [if_neg hbr] at hs
            exact hs
          have e1 : scanParams (n + 1) ((l :: ls') ++ ext) acc =
              scanParams n (ls' ++ ext) acc := by
            simp only [List.cons_append, scanParams, hpm]
            rw [if_neg hbr]
            rfl
          have e2 : scanParams (n + 1) (l :: ls') acc =
              scanParams n ls' acc := by
            simp only [scanParams, hpm]
            rw [if_neg hbr]
          rw [e1, e2, ih ls' ext _ hs']

/-- A non-marker line is processed without looking at the lines after it. -/
theorem processLine_rest_irrelevant {l : List Char}
    {r1 r2 : List (List Char)} {s : ParseCore} (hm : markerSearch l = false) :
    processLine l r1 s = processLine l r2 s := by
  unfold processLine
  simp only [hm, Bool.false_eq_true, if_false]

/-- A marker line whose scan is resolved within `r` is processed the same
with any extension of `r`. -/
theorem processLine_scan_extend {l : List Char} {r ext : List (List Char)}
    {s : ParseCore} (hs : scanStops 19 r = true) :
    processLine l (r ++ ext) s = processLine l r s := by
  unfold processLine
  simp only [scanParams_extend 19 r ext [] hs]

/-- Composition of the line loop over a concatenation, provided every
marker in the first part has its scan window resolved there. -/
theorem processLines_append :
    ∀ (L1 L2 : List (List Char)) (s : ParseCore),
      markersClosed L1 = true →
      processLines (L1 ++ L2) s = (processLines L1 s).bind (processLines L2) := by
  intro L1
  induction L1 with
  | nil => intro L2 s _; rfl
  | cons l r ih =>
    intro L2 s hc
    simp only [markersClosed, Bool.and_eq_true] at hc
    have hhead : processLine l (r ++ L2) s = processLine l r s := by
      cases hmk : markerSearch l with
      | false => exact processLine_rest_irrelevant hmk
      | true =>
        have hst : scanStops 19 r = true := by
          have := hc.1
          rw [hmk] at this
          simpa using this
        exact processLine_scan_extend hst
    show (processLine l (r ++ L2) s).bind (processLines (r ++ L2)) =
      ((processLine l r s).bind (processLines r)).bind (processLines L2)
    rw [hhead]
    cases hpl : processLine l r s with
    | none => rfl
    | some s1 =>
      show processLines (r ++ L2) s1 = (processLines r s1).bind (processLines L2)
      exact ih L2 s1 hc.2

/-- The synthetic empty line produced by splitting a newline-terminated
read is a no-op for the loop. -/
theorem processLines_emptyline (X : List (List Char)) (s : ParseCore)
    (hc : markersClosed X = true) :
    processLines (X ++ [[]]) s = processLines X s := by
  rw [processLines_append X [[]] s hc]
  cases h : processLines X s with
  | none => rfl
  | some p => rfl

theorem splitNl_cons_newline (r : List Char) :
    splitNl ('\n' :: r) = [] :: splitNl r := by
  simp [splitNl]

theorem splitNl_cons_other {c : Char} (hc : c ≠ '\n') (r : List Char)
    {h : List Char} {t : List (List Char)} (hr : splitNl r = h :: t) :
    splitNl (c :: r) = (c :: h) :: t := by
  simp only [splitNl, hr]
  rw [if_neg hc]

theorem splitNl_ne_nil : ∀ cs : List Char, splitNl cs ≠ [] := by
  intro cs
  cases cs with
  | nil => simp [splitNl]
  | cons c r =>
    by_cases hc : c = '\n'
    · subst hc; rw [splitNl_cons_newline]; simp
    · cases hr : splitNl r with
      | nil => simp [splitNl, hr, if_neg hc]
      | cons h t => rw [splitNl_cons_other hc r hr]; simp

/-- Pieces produced by splitting on newlines contain no newline. -/
theorem splitNl_no_newline : ∀ (cs : List Char) (l : List Char),
    l ∈ splitNl cs → '\n' ∉ l := by
  intro cs
  induction cs with
  | nil =>
    intro l hl
    have : l = [] := by simpa [splitNl] using hl
    subst this
    simp
  | cons c r ih =>
    intro l hl
    by_cases hc : c = '\n'
    · subst hc
      rw [splitNl_cons_newline] at hl
      rcases List.mem_cons.mp hl with rfl | hl'
      · simp
      · exact ih l hl'
    · cases hr : splitNl r with
      | nil => exact absurd hr (splitNl_ne_nil r)
      | cons h t =>
        rw [splitNl_cons_other hc r hr] at hl
        rcases List.mem_cons.mp hl with rfl | hl'
        · intro hmem
          rcases List.mem_cons.mp hmem with he | hmem'
          · exact hc he.symm
          · exact ih h (hr ▸ List.mem_cons_self h t) hmem'
        · exact ih l (hr ▸ List.mem_cons_of_mem h hl')

/-- A newline-free string splits into itself. -/
theorem splitNl_of_no_newline : ∀ p : List Char, '\n' ∉ p → splitNl p = [p] := by
  intro p
  induction p with
  | nil => intro _; rfl
  | cons c r ih =>
    intro h
    have hc : c ≠ '\n' := fun he => h (he ▸ List.mem_cons_self c r)
    have hr : splitNl r = [r] := ih (fun hm => h (List.mem_cons_of_mem c hm))
    rw [splitNl_cons_other hc r hr]

theorem splitNl_eq_nilnil : ∀ w : List Char, splitNl w = [[]] → w = [] := by
  intro w h
  cases w with
  | nil => rfl
  | cons c r =>
    by_cases hc : c = '\n'
    · subst hc
      rw [splitNl_cons_newline] at h
      injection h with h1 h2
      exact absurd h2 (splitNl_ne_nil r)
    · cases hr : splitNl r with
      | nil => exact absurd hr (splitNl_ne_nil r)
      | cons x t =>
        rw [splitNl_cons_other hc r hr] at h
        injection h with h1 h2
        cases h1

/-- Splitting a newline-terminated string ends with an empty piece. -/
theorem splitNl_getLast_newline : ∀ cs : List Char,
    cs.getLast? = some '\n' → (splitNl cs).getLast? = some [] := by
  intro cs
  induction cs with
  | nil => intro h; cases h
  | cons c r ih =>
    intro h
    cases r with
    | nil =>
      have hc : c = '\n' := by simpa using h
      subst hc
      rfl
    | cons d r' =>
      rw [List.getLast?_cons_cons] at h
      have ihr : (splitNl (d :: r')).getLast? = some [] := ih h
      by_cases hc : c = '\n'
      · subst hc
        rw [splitNl_cons_newline]
        cases hs : splitNl (d :: r') with
        | nil => exact absurd hs (splitNl_ne_nil _)
        | cons x t =>
          rw [List.getLast?_cons_cons]
          rw [hs] at ihr
          exact ihr
      · cases hs : splitNl (d :: r') with
        | nil => exact absurd hs (splitNl_ne_nil _)
        | cons x t =>
          rw [splitNl_cons_other hc _ hs]
          rw [hs] at ihr
          cases t with
          | nil =>
            have hx : x = [] := by simpa using ihr
            subst hx
            exact absurd (splitNl_eq_nilnil (d :: r') hs) (by simp)
          | cons t1 t2 =>
            rw [List.getLast?_cons_cons]
            rw [List.getLast?_cons_cons] at ihr
            exact ihr

/-- Glue the pending head piece onto a following split. -/
def consHead (x : List Char) : List (List Char) → List (List Char)
  | [] => [x]
  | h :: t => (x ++ h) :: t

/-- A nonempty list is its dropLast plus its last element. -/
theorem eq_dropLast_append_of_getLast? {α : Type} :
    ∀ (l : List α) (a : α), l.getLast? = some a → l = l.dropLast ++ [a] := by
  intro l
  induction l with
  | nil => intro a h; cases h
  | cons x t ih =>
    intro a h
    cases t with
    | nil =>
      have : a = x := by simpa using h.symm
      subst this
      rfl
    | cons t1 t2 =>
      rw [List.getLast?_cons_cons] at h
      have := ih a h
      rw [List.dropLast_cons₂, List.cons_append, ← this]

/-- How `splitNl` distributes over concatenation: the last piece of the
first part glues onto the first piece of the second part. -/
theorem splitNl_append : ∀ a b : List Char,
    splitNl (a ++ b) =
      (splitNl a).dropLast ++
        consHead (((splitNl a).getLast?).getD []) (splitNl b) := by
  intro a
  induction a with
  | nil =>
    intro b
    rw [List.nil_append]
    cases hb : splitNl b with
    | nil => exact absurd hb (splitNl_ne_nil b)
    | cons h t => simp [splitNl, consHead]
  | cons c a' ih =>
    intro b
    cases ha : splitNl a' with
    | nil => exact absurd ha (splitNl_ne_nil a')
    | cons h t =>
      by_cases hc : c = '\n'
      · subst hc
        rw [List.cons_append, splitNl_cons_newline, ih b, splitNl_cons_newline]
        rw [ha]
        cases t with
        | nil => simp [consHead]
        | cons t1 t2 =>
          simp [List.dropLast_cons₂, List.getLast?_cons_cons, List.cons_append]
      · have hab : splitNl (a' ++ b) =
            (splitNl a').dropLast ++
              consHead (((splitNl a').getLast?).getD []) (splitNl b) := ih b
        cases hb : splitNl b with
        | nil => exact absurd hb (splitNl_ne_nil b)
        | cons hb0 tb =>
          rw [hb] at hab
          rw [ha] at hab
          cases t with
          | nil =>
            have hab' : splitNl (a' ++ b) = (h ++ hb0) :: tb := by
              rw [hab]; simp [consHead]
            rw [List.cons_append, splitNl_cons_other hc _ hab',
              splitNl_cons_other hc a' ha]
            simp [consHead]
          | cons t1 t2 =>
            have hab' : splitNl (a' ++ b) =
                h :: ((t1 :: t2).dropLast ++
                  consHead (((t1 :: t2).getLast?).getD []) (hb0 :: tb)) := by
              rw [hab, List.dropLast_cons₂, List.getLast?_cons_cons,
                List.cons_append]
            rw [List.cons_append, splitNl_cons_other hc _ hab',
              splitNl_cons_other hc a' ha]
            simp [List.dropLast_cons₂, List.getLast?_cons_cons,
              List.cons_append]

/-- For a newline-terminated first read, the processed lines are the
complete lines plus a synthetic empty final piece. -/
theorem chunkLines_of_newline {c1 : List Char}
    (hnl : c1.getLast? = some '\n') :
    chunkLines [] c1 = (splitNl c1).dropLast ++ [[]] ∧
    chunkPending [] c1 = [] := by
  constructor
  · unfold chunkLines
    rw [List.nil_append, if_pos hnl]
    exact eq_dropLast_append_of_getLast? _ _ (splitNl_getLast_newline c1 hnl)
  · unfold chunkPending
    rw [List.nil_append, if_pos hnl]

/-- For a read not ending in a newline, the processed lines are all split
pieces but the last, which is buffered. -/
theorem chunkLines_of_no_newline {c1 : List Char}
    (hnl : c1.getLast? ≠ some '\n') :
    chunkLines [] c1 = (splitNl c1).dropLast ∧
    chunkPending [] c1 = ((splitNl c1).getLast?).getD [] := by
  constructor
  · unfold chunkLines
    rw [List.nil_append, if_neg hnl]
  · unfold chunkPending
    rw [List.nil_append, if_neg hnl]

/-- Chunk composition: reading `c1 ++ c2` in one go splits into the
complete lines of `c1` followed by the lines of the second read seeded
with `c1`'s buffered partial line; the final buffered line also agrees. -/
theorem chunk_append (c1 c2 : List Char) (h2 : c2 ≠ []) :
    chunkLines [] (c1 ++ c2) =
      (splitNl c1).dropLast ++ chunkLines (chunkPending [] c1) c2 ∧
    chunkPending [] (c1 ++ c2) = chunkPending (chunkPending [] c1) c2 := by
  have hsplit : splitNl (c1 ++ c2) =
      (splitNl c1).dropLast ++ splitNl (chunkPending [] c1 ++ c2) := by
    rw [splitNl_append c1 c2]
    by_cases hnl : c1.getLast? = some '\n'
    · have hp : chunkPending [] c1 = [] := (chunkLines_of_newline hnl).2
      rw [hp, List.nil_append]
      have hg : (splitNl c1).getLast? = some [] :=
        splitNl_getLast_newline c1 hnl
      rw [hg]
      cases hb : splitNl c2 with
      | nil => exact absurd hb (splitNl_ne_nil c2)
      | cons hb0 tb => simp [consHead]
    · have hp : chunkPending [] c1 = ((splitNl c1).getLast?).getD [] :=
        (chunkLines_of_no_newline hnl).2
      have hpnl : '\n' ∉ ((splitNl c1).getLast?).getD [] := by
        cases hg : (splitNl c1).getLast? with
        | none => simp
        | some x =>
          have hx : x ∈ splitNl c1 := by
            rw [eq_dropLast_append_of_getLast? _ x hg]
            simp
          simpa using splitNl_no_newline c1 x hx
      have hps : splitNl (((splitNl c1).getLast?).getD [] ++ c2) =
          consHead (((splitNl c1).getLast?).getD []) (splitNl c2) := by
        rw [splitNl_append, splitNl_of_no_newline _ hpnl]
        cases hb : splitNl c2 with
        | nil => exact absurd hb (splitNl_ne_nil c2)
        | cons hb0 tb => simp [consHead]
      rw [hp, hps]
  have hlast : (c1 ++ c2).getLast? = c2.getLast? :=
    List.getLast?_append_of_ne_nil c1 h2
  constructor
  · unfold chunkLines
    rw [hlast, List.nil_append]
    by_cases h2nl : c2.getLast? = some '\n'
    · rw [if_pos h2nl, if_pos h2nl, hsplit]
    · rw [if_neg h2nl, if_neg h2nl, hsplit,
        List.dropLast_append_of_ne_nil _ (splitNl_ne_nil _)]
  · unfold chunkPending
    rw [hlast, List.nil_append]
    by_cases h2nl : c2.getLast? = some '\n'
    · rw [if_pos h2nl, if_pos h2nl]
    · rw [if_neg h2nl, if_neg h2nl, hsplit,
        List.getLast?_append_of_ne_nil _ (splitNl_ne_nil _)]
      rfl

/-- The offset recorded by a successful call is `tell()`, namely the old
offset pushed to at least the end of the file. -/
theorem parse_incremental_fp {content : List Char} {s st : ParserState}
    {b : Bool} (h : parse_incremental (some content) s = some (st, b)) :
    st.file_position = Max.max s.file_position content.length := by
  unfold parse_incremental at h
  simp only at h
  split at h
  · cases h; rfl
  · split at h
    · cases h
    · cases h; rfl

/-- Shape of a call that actually reads new bytes. -/
theorem parse_incremental_run {content : List Char} {s : ParserState}
    (hne : (content.drop s.file_position).isEmpty = false) :
    parse_incremental (some content) s =
      match processLines (chunkLines s.pendingLine
          (content.drop s.file_position)) s.core with
      | none => none
      | some p =>
        some (⟨p, Max.max s.file_position content.length,
          chunkPending s.pendingLine (content.drop s.file_position)⟩,
          decide (s.core.improvements.length < p.improvements.length)) := by
  unfold parse_incremental
  simp only [hne, Bool.false_eq_true, if_false]

/-- A fresh parser fed the whole file in one call. -/
def oneShot (C : List Char) : Option ParserState :=
  (parse_incremental (some C) initState).map Prod.fst

/-- A fresh parser fed the same file in two calls: first the prefix of
`k` bytes, then the full file (the second read continues at the saved
offset). -/
def twoCalls (C : List Char) (k : ℕ) : Option ParserState :=
  (parse_incremental (some (C.take k)) initState).bind fun pr =>
  (parse_incremental (some C) pr.1).map Prod.fst

/-- The complete lines of the first chunk, as the first call processes
them (without the synthetic empty piece a trailing newline produces). -/
def firstChunkLines (C : List Char) (k : ℕ) : List (List Char) :=
  if C.take k = [] then [] else (splitNl (C.take k)).dropLast

/-- Claim C1 (amended): chunking-insensitivity holds whenever the split
does not cut into a marker's scan window - precisely, when every
improvement-marker line among the first chunk's complete lines has its
19-line parameter scan resolved inside that chunk (it stops at a
terminator line, exhausts its budget, or raises).  Under that condition
the two-call run yields exactly the improvements of the one-call run. -/
theorem C1_chunking_insensitive_when_scan_closed (C : List Char) (k : ℕ)
    (hc : markersClosed (firstChunkLines C k) = true) :
    (twoCalls C k).map (fun st => st.core.improvements) =
      (oneShot C).map (fun st => st.core.improvements) := by
  by_cases hk0 : C.take k = []
  · have h1 : parse_incremental (some (C.take k)) initState =
        some (initState, false) := by
      rw [hk0]
      rfl
    unfold twoCalls oneShot
    rw [h1]
    rfl
  · have hD : firstChunkLines C k = (splitNl (C.take k)).dropLast := by
      unfold firstChunkLines
      rw [if_neg hk0]
    have hcD : markersClosed ((splitNl (C.take k)).dropLast) = true := hD ▸ hc
    by_cases hk2 : C.drop k = []
    · have hlen : C.length ≤ k := List.drop_eq_nil_iff.mp hk2
      have hC : C.take k = C := List.take_of_length_le hlen
      unfold twoCalls oneShot
      rw [hC]
      cases h1 : parse_incremental (some C) initState with
      | none => rfl
      | some pr =>
        obtain ⟨st, b⟩ := pr
        have hge : C.length ≤ st.file_position := by
          rw [parse_incremental_fp h1,
            show initState.file_position = 0 from rfl, Nat.zero_max]
        show ((parse_incremental (some C) st).map Prod.fst).map
            (fun st => st.core.improvements) = _
        rw [parse_incremental_noop hge]
        rfl
    · have hkC : k < C.length := by
        by_contra hge
        push_neg at hge
        exact hk2 (List.drop_eq_nil_of_le hge)
      have hc1len : (C.take k).length = k :=
        List.length_take_of_le (Nat.le_of_lt hkC)
      have hfp1 : Max.max 0 (C.take k).length = k := by
        rw [Nat.zero_max]
        exact hc1len
      have hne1 : ((C.take k).drop 0).isEmpty = false := by
        rw [List.drop_zero]
        cases hx : C.take k with
        | nil => exact absurd hx hk0
        | cons y ys => rfl
      have hne2 : (C.drop k).isEmpty = false := by
        cases hx : C.drop k with
        | nil => exact absurd hx hk2
        | cons y ys => rfl
      have hneC : (C.drop 0).isEmpty = false := by
        rw [List.drop_zero]
        cases hx : C with
        | nil => rw [hx] at hkC; simp at hkC
        | cons y ys => rfl
      have hproc1 : processLines (chunkLines [] (C.take k)) initCore =
          processLines ((splitNl (C.take k)).dropLast) initCore := by
        by_cases hnl : (C.take k).getLast? = some '\n'
        · rw [(chunkLines_of_newline hnl).1]
          exact processLines_emptyline _ initCore hcD
        · rw [(chunkLines_of_no_newline hnl).1]
      obtain ⟨hCL, -⟩ := chunk_append (C.take k) (C.drop k) hk2
      rw [List.take_append_drop] at hCL
      have hcall1 : parse_incremental (some (C.take k)) initState =
          match processLines (chunkLines [] (C.take k)) initCore with
          | none => none
          | some p => some (⟨p, Max.max 0 (C.take k).length,
              chunkPending [] (C.take k)⟩,
              decide (initCore.improvements.length < p.improvements.length)) := by
        exact parse_incremental_run (by exact hne1)
      rw [hproc1, hfp1] at hcall1
      have hcallC : parse_incremental (some C) initState =
          match processLines (chunkLines [] C) initCore with
          | none => none
          | some p2 => some (⟨p2, Max.max 0 C.length, chunkPending [] C⟩,
              decide (initCore.improvements.length < p2.improvements.length)) := by
        exact parse_incremental_run (by exact hneC)
      rw [hCL, processLines_append _ _ initCore hcD] at hcallC
      cases hpX : processLines ((splitNl (C.take k)).dropLast) initCore with
      | none =>
        rw [hpX] at hcall1 hcallC
        unfold twoCalls oneShot
        rw [hcall1, hcallC]
        rfl
      | some p =>
        rw [hpX] at hcall1 hcallC
        have hcall2 : parse_incremental (some C)
            ⟨p, k, chunkPending [] (C.take k)⟩ =
            match processLines (chunkLines (chunkPending [] (C.take k))
                (C.drop k)) p with
            | none => none
            | some p2 => some (⟨p2, Max.max k C.length,
                chunkPending (chunkPending [] (C.take k)) (C.drop k)⟩,
                decide (p.improvements.length < p2.improvements.length)) := by
          exact parse_incremental_run (by exact hne2)
        have step1 : twoCalls C k =
            (parse_incremental (some C)
              ⟨p, k, chunkPending [] (C.take k)⟩).map Prod.fst := by
          unfold twoCalls
          rw [hcall1]
          rfl
        have step2 : oneShot C =
            ((match processLines (chunkLines (chunkPending [] (C.take k))
                (C.drop k)) p with
             | none => none
             | some p2 => some ((⟨p2, Max.max 0 C.length,
                 chunkPending [] C⟩ : ParserState),
                 decide (initCore.improvements.length < p2.improvements.length)))
              : Option (ParserState × Bool)).map Prod.fst := by
          unfold oneShot
          rw [hcallC]
          rfl
        rw [step1, step2, hcall2]
        cases hp2 : processLines (chunkLines (chunkPending [] (C.take k))
            (C.drop k)) p with
        | none => rfl
        | some p2 => rfl

/-- A file whose marker line and parameter line are split by the chunk
boundary at byte 13 (right after the marker's newline). -/
def c1Whole : List Char := ("*** NEW BEST\n  W = 1.5\n").data

/-- Counterexample to C1 as stated: feeding the whole file at once yields
one record, but feeding it as prefix-of-13-bytes then remainder yields
none - the marker was consumed in the first call with an empty scan
window, so the final improvements sequences differ. -/
theorem C1_counterexample :
    (oneShot c1Whole).map (fun st => st.core.improvements.length) = some 1 ∧
    (twoCalls c1Whole 13).map (fun st => st.core.improvements.length) = some 0 ∧
    (twoCalls c1Whole 13).map (fun st => st.core.improvements) ≠
      (oneShot c1Whole).map (fun st => st.core.improvements) :=
  ⟨by decide, by decide, by decide⟩

/-- The worked-example file with one generation line before the marker. -/
def c1WitnessFile : List Char :=
  ("Gen 1 - Fit: 2 (mean=3, var=4)\n*** NEW BEST\n  W = 1.5\n").data

/-- Witness for the amended C1: splitting mid-way through the generation
line (byte 5) leaves no marker in the first chunk, so the scan-closure
condition holds and the two-call run matches the one-call run. -/
theorem C1_chunking_witness :
    (twoCalls c1WitnessFile 5).map (fun st => st.core.improvements) =
      (oneShot c1WitnessFile).map (fun st => st.core.improvements) :=
  C1_chunking_insensitive_when_scan_closed c1WitnessFile 5 (by decide)
